import Mathlib

/-!
Verification of the peak-localization core
(`spikeinterface/sortingcomponents/peak_localization.py`).

The shallow embedding below translates the per-buffer computation of the
three localization strategies (`peak_channel`, `center_of_mass`,
`monopolar_triangulation`) into pure Lean functions over `ℚ`.  Numpy
arrays become lists of rows; 1-d index vectors become lists of `Nat`;
machine floats become rationals, except that a division whose result can
be non-finite (NaN/inf) is modelled by `Option ℚ` with `none` standing
for the non-finite value, and the square root used by `np.linalg.norm`
is kept as an abstract function parameter.  Code raising a Python
exception is modelled with `Option` at the level where the exception
escapes.  Helpers that the source imports from
`postprocessing.unit_localization` (not part of these sources) are
modelled from the specification and marked as such in their doc
comments.
-/

set_option autoImplicit false

/-- A detected peak event, as produced by peak detection in the compact
dtype: `sample_ind`, `channel_ind`, `segment_ind` (the amplitude field
is never read by localization and is omitted). -/
structure Peak where
  sample_ind : Nat
  channel_ind : Nat
  segment_ind : Nat
  deriving DecidableEq, Repr

/-- The read-only attributes that the `PeakPipelineStep` base class
precomputes for every localization step: `contact_locations` (one
coordinate list per channel), the boolean `neighbours_mask` (row `i`,
column `j` true iff channel `j` is within `local_radius_um` of channel
`i`), and the window sizes `nbefore`/`nafter` in samples. -/
structure PipelineStepBase where
  contact_locations : List (List ℚ)
  neighbours_mask : List (List Bool)
  nbefore : Nat
  nafter : Nat
  deriving DecidableEq, Repr

/-- Indices at which a 1-d boolean mask is `true`, in increasing order
(`np.nonzero(mask)` / `np.flatnonzero(mask)`). -/
def nonzeroIdx (mask : List Bool) : List Nat :=
  (List.range mask.length).filter (fun i => mask.getD i false)

/-- Indices at which a vector of channel ids equals `c`, in increasing
order (`np.nonzero(chans == c)`). -/
def whereEq (chans : List Nat) (c : Nat) : List Nat :=
  (List.range chans.length).filter (fun i => chans.getD i 0 = c)

/-- Sorted deduplicated values (`np.unique`); only membership matters to
the theorems below. -/
def npUnique (l : List Nat) : List Nat :=
  (l.dedup).insertionSort (fun a b => a ≤ b)

/-- Column `c` of a 2-d array stored as a list of rows. -/
def colD (wf : List (List ℚ)) (c : Nat) : List ℚ :=
  wf.map (fun row => row.getD c 0)

/-- `np.maximum.reduce` over a window: numpy raises `ValueError` on a
zero-size reduction, modelled by `none`. -/
def listMax : List ℚ → Option ℚ
  | [] => none
  | x :: xs => some (xs.foldl max x)

/-- `np.minimum.reduce` over a window: `none` models the `ValueError`
numpy raises on a zero-size reduction. -/
def listMin : List ℚ → Option ℚ
  | [] => none
  | x :: xs => some (xs.foldl min x)

/-- Peak-to-peak (`np.ptp`) of one reduced column: max minus min over
the sample window; on an empty window the underlying reductions raise
(`none`). -/
def ptpList (l : List ℚ) : Option ℚ :=
  match listMax l, listMin l with
  | some mx, some mn => some (mx - mn)
  | _, _ => none

/-- The feature names the `center_of_mass` dispatch in `compute_buffer`
recognizes; any other name leaves `wf_data` unbound and raises. -/
def supportedFeature (feature : String) : Bool :=
  feature = "ptp" || feature = "mean" || feature = "energy" || feature = "v_origin"

/-- The scalar weight the center-of-mass step computes for one neighbour
channel `c` of one peak's waveform snippet `wf` (rows are samples,
columns are channels): the configured feature reduced along the sample
axis.  `sqrtFn` stands for the square-root routine inside
`np.linalg.norm`; it is a parameter because the embedding is over `ℚ`.
Snippets handed to this step by the execution engine always span
`nbefore + nafter ≥ 1` samples, where `ptpList` is `some`; the `getD`
keeps the weight a plain rational on that domain. -/
def featureWeight (feature : String) (sqrtFn : ℚ → ℚ) (nbefore : Nat)
    (wf : List (List ℚ)) (c : Nat) : ℚ :=
  if feature = "ptp" then (ptpList (colD wf c)).getD 0
  else if feature = "mean" then (colD wf c).sum / ((colD wf c).length : ℚ)
  else if feature = "energy" then sqrtFn (((colD wf c).map (fun v => v * v)).sum)
  else if feature = "v_origin" then (wf.getD nbefore []).getD c 0
  else 0

/-- Numpy float division as used in the centroid computation: a zero
denominator yields a non-finite float (NaN or ±inf) and a warning, not
an exception; the non-finite value is modelled as `none`. -/
def npDiv (a b : ℚ) : Option ℚ :=
  if b = 0 then none else some (a / b)

/-- One output record of the `{x, y}` dtype of the center-of-mass step;
a coordinate is `none` when the float computation produced a non-finite
value. -/
structure ComRecord where
  x : Option ℚ
  y : Option ℚ
  deriving DecidableEq, Repr

/-- `LocalizeCenterOfMass`: the configuration its `__init__` stores.
The constructor performs no validation of `feature`. -/
structure LocalizeCenterOfMass where
  base : PipelineStepBase
  feature : String
  deriving DecidableEq, Repr

/-- `LocalizeCenterOfMass.__init__`: stores the feature name unchecked. -/
def LocalizeCenterOfMass.init (base : PipelineStepBase) (feature : String) :
    LocalizeCenterOfMass :=
  { base := base, feature := feature }

/-- The per-neighbour-channel weight vector (`wf_data` row) of one peak
with channel `chan`: the feature applied to each neighbour column of the
peak's snippet. -/
def comWeights (cfg : LocalizeCenterOfMass) (sqrtFn : ℚ → ℚ)
    (wf : List (List ℚ)) (chan : Nat) : List ℚ :=
  (nonzeroIdx (cfg.base.neighbours_mask.getD chan [])).map
    (featureWeight cfg.feature sqrtFn cfg.base.nbefore wf)

/-- One row of the vectorized group computation of
`LocalizeCenterOfMass.compute_buffer`: the centroid
`np.dot(wf_data, local_contact_locations) / np.sum(wf_data)` for a
single peak (per-row, the vectorized numpy expression is exactly this). -/
def comPerPeakRec (cfg : LocalizeCenterOfMass) (sqrtFn : ℚ → ℚ)
    (wf : List (List ℚ)) (chan : Nat) : ComRecord :=
  let chan_inds := nonzeroIdx (cfg.base.neighbours_mask.getD chan [])
  let locs := chan_inds.map (fun c => cfg.base.contact_locations.getD c [])
  let w := comWeights cfg sqrtFn wf chan
  let s := w.sum
  { x := npDiv (List.zipWith (fun wi p => wi * p.getD 0 0) w locs).sum s,
    y := npDiv (List.zipWith (fun wi p => wi * p.getD 1 0) w locs).sum s }

/-- The writes one channel group performs on the output array: for every
peak index `i` with `chans[i] = main_chan`, store that peak's centroid
record at position `i` (`peak_locations[...][idx] = coms[...]`). -/
def comGroupAssign (cfg : LocalizeCenterOfMass) (sqrtFn : ℚ → ℚ)
    (waveforms : List (List (List ℚ))) (chans : List Nat) (main_chan : Nat)
    (arr : List ComRecord) : List ComRecord :=
  (whereEq chans main_chan).foldl
    (fun a i => a.set i (comPerPeakRec cfg sqrtFn (waveforms.getD i []) main_chan))
    arr

/-- `LocalizeCenterOfMass.compute_buffer`: start from `np.zeros`, loop
over `np.unique(peaks['channel_ind'])`, and per group dispatch on the
feature and scatter the centroid records at the group's peak indices.
An unknown feature leaves `wf_data` unbound in the loop body, raising
from inside the group loop: that escaping exception is the outer
`none` (an empty peak list never enters the loop and so never raises). -/
def LocalizeCenterOfMass.compute_buffer (cfg : LocalizeCenterOfMass)
    (sqrtFn : ℚ → ℚ) (traces : List (List ℚ)) (peaks : List Peak)
    (waveforms : List (List (List ℚ))) : Option (List ComRecord) :=
  let chans := peaks.map Peak.channel_ind
  (npUnique chans).foldlM
    (fun arr mc =>
      if supportedFeature cfg.feature then
        some (comGroupAssign cfg sqrtFn waveforms chans mc arr)
      else none)
    (List.replicate peaks.length { x := some 0, y := some 0 })

/-- `LocalizePeakChannel`: only the base attributes are stored. -/
structure LocalizePeakChannel where
  base : PipelineStepBase
  deriving DecidableEq, Repr

/-- Output record of the peak-channel step (same `{x, y}` dtype); the
coordinates are copied directly from the geometry, so the fields are
plain values. -/
structure PeakChanRecord where
  x : ℚ
  y : ℚ
  deriving DecidableEq, Repr

/-- The record the peak-channel loop body writes at one index: the first
two coordinates of `contact_locations[main_chan]`. -/
def peakChanPerPeakRec (cfg : LocalizePeakChannel) (p : Peak) : PeakChanRecord :=
  let locations := cfg.base.contact_locations.getD p.channel_ind []
  { x := locations.getD 0 0, y := locations.getD 1 0 }

/-- `LocalizePeakChannel.compute_buffer`: the source enumerates the
peaks and writes one record per index into a `np.zeros` array; writing
record `i` as a function of peak `i` in order is exactly a map.  The
`traces` argument is received but never read. -/
def LocalizePeakChannel.compute_buffer (cfg : LocalizePeakChannel)
    (traces : List (List ℚ)) (peaks : List Peak) : List PeakChanRecord :=
  peaks.map (peakChanPerPeakRec cfg)

/-- Python slice-bound resolution for a sequence of length `n`: a
negative bound counts from the end (clamped below at 0), a nonnegative
one is clamped above at `n`.  Slicing never raises. -/
def pySliceIndex (n : Nat) (i : Int) : Nat :=
  if i < 0 then ((n : Int) + i).toNat else min i.toNat n

/-- Python slice `l[start:stop]` with the semantics of `pySliceIndex`. -/
def pySlice {α : Type} (l : List α) (start stop : Int) : List α :=
  let a := pySliceIndex l.length start
  let b := pySliceIndex l.length stop
  (l.drop a).take (b - a)

/-- The trace window the monopolar step slices out around a peak:
`traces[sample_ind - nbefore : sample_ind + nafter]` with Python slice
semantics (the bounds are signed). -/
def monoWindow (nbefore nafter : Nat) (traces : List (List ℚ))
    (sample_ind : Nat) : List (List ℚ) :=
  pySlice traces ((sample_ind : Int) - (nbefore : Int))
    ((sample_ind : Int) + (nafter : Int))

/-- Minimum amplitude over one shell ring (`ring` holds indices into the
amplitude vector; the ring is nonempty whenever built by the shell
ordering, the `[]` case is a harmless total-function default). -/
def ringMin (ring : List Nat) (amps : Nat → ℚ) : ℚ :=
  match ring with
  | [] => 0
  | c :: cs => cs.foldl (fun m d => min m (amps d)) (amps c)

/-- Clamp every amplitude of `ring` down to `m` when it exceeds `m`. -/
def clampRing (ring : List Nat) (m : ℚ) (amps : Nat → ℚ) : Nat → ℚ :=
  fun c => if c ∈ ring then min (amps c) m else amps c

/-- Process the remaining rings in order; `prev` is the ring processed
last, whose current minimum bounds the next ring. -/
def enforceShellsGo (prev : List Nat) (rings : List (List Nat))
    (amps : Nat → ℚ) : Nat → ℚ :=
  match rings with
  | [] => amps
  | r :: rs => enforceShellsGo r rs (clampRing r (ringMin prev amps) amps)

/-- Modelled from the spec: `enforce_decrease_shells_ptp` is imported
from `postprocessing.unit_localization`, which is not part of these
sources.  Spec §4.3: process shells in increasing order starting at
shell 1 (shell 0, the peak channel, is unconstrained); each channel of
shell k whose amplitude exceeds the minimum amplitude observed in shell
k−1 is clamped down to that minimum.  The amplitude vector is a function
from index to value; the in-place update is modelled by returning the
updated function. -/
def enforce_decrease_shells_ptp (shells : List (List Nat)) (amps : Nat → ℚ) :
    Nat → ℚ :=
  match shells with
  | [] => amps
  | r0 :: rest => enforceShellsGo r0 rest amps

/-- Output record of the monopolar step (`{x, y, z, alpha}` dtype). -/
structure MonoRecord where
  x : ℚ
  y : ℚ
  z : ℚ
  alpha : ℚ
  deriving DecidableEq, Repr

/-- `LocalizeMonopolarTriangulation`: the configuration its `__init__`
stores.  `enforce_decrease_radial_parents` holds, for every channel, the
shell partition of the amplitude-vector indices of its neighbour set; it
is `some` exactly when `enforce_decrease` was passed true. -/
structure LocalizeMonopolarTriangulation where
  base : PipelineStepBase
  max_distance_um : ℚ
  optimizer : String
  enforce_decrease_radial_parents : Option (List (List (List Nat)))
  deriving DecidableEq, Repr

/-- `LocalizeMonopolarTriangulation.__init__`: builds the radial-parent
structure iff `enforce_decrease` is true (`make_radial_order_parents` is
defined outside these sources; its result, the distance-ordered shell
partition per channel described in spec §4.2, enters as the `shellsAll`
argument). -/
def LocalizeMonopolarTriangulation.init (base : PipelineStepBase)
    (max_distance_um : ℚ) (optimizer : String) (enforce_decrease : Bool)
    (shellsAll : List (List (List Nat))) : LocalizeMonopolarTriangulation :=
  { base := base, max_distance_um := max_distance_um, optimizer := optimizer,
    enforce_decrease_radial_parents :=
      if enforce_decrease then some shellsAll else none }

/-- The amplitude vector handed to the solver for a peak on channel
`chan`: the raw per-neighbour ptp vector, passed through the
monotonicity enforcer exactly when radial parents were built. -/
def monoAmps (cfg : LocalizeMonopolarTriangulation) (wf_ptp : List ℚ)
    (chan : Nat) : List ℚ :=
  match cfg.enforce_decrease_radial_parents with
  | some rp =>
      (List.range wf_ptp.length).map
        (enforce_decrease_shells_ptp (rp.getD chan []) (fun i => wf_ptp.getD i 0))
  | none => wf_ptp

/-- The neighbour channel indices of a peak channel
(`np.flatnonzero(self.neighbours_mask[chan])`). -/
def monoChanInds (cfg : LocalizeMonopolarTriangulation) (chan : Nat) : List Nat :=
  nonzeroIdx (cfg.base.neighbours_mask.getD chan [])

/-- `local_contact_locations`: the geometry rows of the neighbours. -/
def monoLocalLocs (cfg : LocalizeMonopolarTriangulation) (chan : Nat) :
    List (List ℚ) :=
  (monoChanInds cfg chan).map (fun c => cfg.base.contact_locations.getD c [])

/-- `wf_ptp`: per-neighbour-column peak-to-peak amplitude of the sliced
trace window (`wf.ptp(axis=0)` after
`traces[sample_ind - nbefore : sample_ind + nafter][:, chan_inds]`);
this is the fresh array created for one peak.  On an empty window the
per-column zero-size reduction raises `ValueError` (`none`) as soon as
there is at least one neighbour column; with no columns the reduction
is empty and succeeds, exactly as in numpy. -/
def monoWfPtp (cfg : LocalizeMonopolarTriangulation) (traces : List (List ℚ))
    (peak : Peak) : Option (List ℚ) :=
  (monoChanInds cfg peak.channel_ind).mapM
    (fun c =>
      ptpList (colD (monoWindow cfg.base.nbefore cfg.base.nafter traces
        peak.sample_ind) c))

/-- One iteration of the monopolar peak loop: slice the trace window,
restrict it to the neighbour columns, take per-column ptp (which can
raise on an empty window), optionally enforce decrease, and hand the
result to `solve_monopolar_triangulation` (defined outside these
sources, abstracted as `solveMono`). -/
def monoPerPeakRec (cfg : LocalizeMonopolarTriangulation)
    (solveMono : List ℚ → List (List ℚ) → ℚ → String → MonoRecord)
    (traces : List (List ℚ)) (peak : Peak) : Option MonoRecord :=
  (monoWfPtp cfg traces peak).map
    (fun wf_ptp =>
      solveMono (monoAmps cfg wf_ptp peak.channel_ind)
        (monoLocalLocs cfg peak.channel_ind) cfg.max_distance_um cfg.optimizer)

/-- `LocalizeMonopolarTriangulation.compute_buffer`: the source loops
over the peaks writing record `i` from peak `i` into a `np.zeros`
array; a `ValueError` from the ptp of an empty window escapes the loop
and aborts the buffer with the partial array discarded, which is
`mapM` over `Option`. -/
def LocalizeMonopolarTriangulation.compute_buffer
    (cfg : LocalizeMonopolarTriangulation)
    (solveMono : List ℚ → List (List ℚ) → ℚ → String → MonoRecord)
    (traces : List (List ℚ)) (peaks : List Peak) : Option (List MonoRecord) :=
  peaks.mapM (monoPerPeakRec cfg solveMono traces)

/-- Modelled from the spec: `possible_localization_methods` is imported
from `postprocessing.unit_localization`, which is not part of these
sources; spec §6 fixes the admissible set. -/
def possible_localization_methods : List String :=
  ["peak_channel", "center_of_mass", "monopolar_triangulation"]

/-- The step object `localize_peaks` selects. -/
inductive LocalizeStep where
  | center_of_mass
  | monopolar_triangulation
  | peak_channel
  deriving DecidableEq, Repr

/-- The `assert`/dispatch prefix of `localize_peaks`: the assertion on
`possible_localization_methods` runs first and raises before anything
else; then the if/elif chain picks the step (the chain has no final
else, so a name passing the assert but matching no branch would leave
`step` unbound — unreachable, kept as an error for faithfulness). -/
def localize_peaks_dispatch (method : String) : Except String LocalizeStep :=
  if method ∈ possible_localization_methods then
    if method = "center_of_mass" then Except.ok LocalizeStep.center_of_mass
    else if method = "monopolar_triangulation" then
      Except.ok LocalizeStep.monopolar_triangulation
    else if method = "peak_channel" then Except.ok LocalizeStep.peak_channel
    else Except.error "step unbound"
  else Except.error "Method is not supported"

/-- `localize_peaks`: dispatch, then run the pipeline on the chosen step
(`run_peak_pipeline` is the external execution engine, abstracted as
`runPipeline`; it is reached only when the dispatch succeeded). -/
def localize_peaks {α : Type} (runPipeline : LocalizeStep → List Peak → α)
    (method : String) (peaks : List Peak) : Except String α :=
  match localize_peaks_dispatch method with
  | Except.error e => Except.error e
  | Except.ok step => Except.ok (runPipeline step peaks)

/-! ### List helper lemmas -/

theorem getD_set_split {α : Type} (a : List α) (i : Nat) (v : α) (j : Nat) (d : α) :
    (a.set i v).getD j d = if i = j ∧ j < a.length then v else a.getD j d := by
  rcases Nat.lt_or_ge j a.length with hlt | hge
  · rw [List.getD_eq_getElem _ _ (by simpa using hlt), List.getElem_set,
      List.getD_eq_getElem _ _ hlt]
    by_cases hij : i = j <;> simp [hij, hlt]
  · have h1 : a.length ≤ j := hge
    have h2 : (a.set i v).length ≤ j := by simpa using hge
    rw [List.getD_eq_getElem?_getD, List.getD_eq_getElem?_getD,
      List.getElem?_eq_none h1, List.getElem?_eq_none h2]
    simp [Nat.not_lt.mpr hge]

theorem foldl_set_length {α : Type} (L : List Nat) (u : Nat → α) (a : List α) :
    (L.foldl (fun acc i => acc.set i (u i)) a).length = a.length := by
  induction L generalizing a with
  | nil => rfl
  | cons i L ih => rw [List.foldl_cons, ih, List.length_set]

theorem foldl_set_getD {α : Type} (L : List Nat) (u : Nat → α) (a : List α)
    (j : Nat) (d : α) :
    (L.foldl (fun acc i => acc.set i (u i)) a).getD j d
      = if j ∈ L ∧ j < a.length then u j else a.getD j d := by
  induction L generalizing a with
  | nil => simp
  | cons i L ih =>
    rw [List.foldl_cons, ih, List.length_set, getD_set_split]
    rcases Nat.lt_or_ge j a.length with hlt | hge
    · by_cases hjL : j ∈ L
      · simp [hjL, hlt]
      · by_cases hij : i = j
        · subst hij
          simp [hjL, hlt]
        · simp [hjL, hij, hlt, List.mem_cons, Ne.symm hij]
    · simp [Nat.not_lt.mpr hge]

theorem mem_whereEq {chans : List Nat} {c j : Nat} :
    j ∈ whereEq chans c ↔ j < chans.length ∧ chans.getD j 0 = c := by
  simp [whereEq, List.mem_filter, List.mem_range]

theorem mem_npUnique {l : List Nat} {x : Nat} : x ∈ npUnique l ↔ x ∈ l := by
  simp [npUnique, List.mem_insertionSort, List.mem_dedup]

theorem foldlM_option_some {α β : Type} (g : β → α → β) (init : β) (l : List α) :
    l.foldlM (fun b a => some (g b a)) init = some (l.foldl g init) := by
  induction l generalizing init with
  | nil => rfl
  | cons a l ih => simp [List.foldlM_cons, List.foldl_cons, ih]

theorem foldlM_option_none {α β : Type} (init : β) (l : List α) (hl : l ≠ []) :
    l.foldlM (fun _ _ => (none : Option β)) init = none := by
  cases l with
  | nil => exact absurd rfl hl
  | cons a l => simp [List.foldlM_cons]

theorem comGroupAssign_length (cfg : LocalizeCenterOfMass) (sqrtFn : ℚ → ℚ)
    (waveforms : List (List (List ℚ))) (chans : List Nat) (mc : Nat)
    (arr : List ComRecord) :
    (comGroupAssign cfg sqrtFn waveforms chans mc arr).length = arr.length :=
  foldl_set_length _ _ _

theorem comGroupAssign_getD (cfg : LocalizeCenterOfMass) (sqrtFn : ℚ → ℚ)
    (waveforms : List (List (List ℚ))) (chans : List Nat) (mc : Nat)
    (arr : List ComRecord) (j : Nat) (d : ComRecord) :
    (comGroupAssign cfg sqrtFn waveforms chans mc arr).getD j d
      = if j < chans.length ∧ chans.getD j 0 = mc ∧ j < arr.length then
          comPerPeakRec cfg sqrtFn (waveforms.getD j []) mc
        else arr.getD j d := by
  rw [comGroupAssign, foldl_set_getD]
  by_cases h2 : j < chans.length
  · by_cases h3 : chans.getD j 0 = mc
    · by_cases h4 : j < arr.length
      · rw [if_pos ⟨mem_whereEq.mpr ⟨h2, h3⟩, h4⟩, if_pos ⟨h2, h3, h4⟩]
      · rw [if_neg (fun h => h4 h.2), if_neg (fun h => h4 h.2.2)]
    · have h1 : j ∉ whereEq chans mc := fun hmem => h3 (mem_whereEq.mp hmem).2
      rw [if_neg (fun h => h1 h.1), if_neg (fun h => h3 h.2.1)]
  · have h1 : j ∉ whereEq chans mc := fun hmem => h2 (mem_whereEq.mp hmem).1
    rw [if_neg (fun h => h1 h.1), if_neg (fun h => h2 h.1)]

theorem foldl_comGroupAssign_getD (cfg : LocalizeCenterOfMass) (sqrtFn : ℚ → ℚ)
    (waveforms : List (List (List ℚ))) (chans : List Nat) (ucs : List Nat)
    (arr : List ComRecord) (j : Nat) (d : ComRecord) :
    (ucs.foldl (fun a mc => comGroupAssign cfg sqrtFn waveforms chans mc a) arr).getD j d
      = if chans.getD j 0 ∈ ucs ∧ j < chans.length ∧ j < arr.length then
          comPerPeakRec cfg sqrtFn (waveforms.getD j []) (chans.getD j 0)
        else arr.getD j d := by
  induction ucs generalizing arr with
  | nil => rw [List.foldl_nil, if_neg (fun h => List.not_mem_nil _ h.1)]
  | cons mc ucs ih =>
    rw [List.foldl_cons, ih, comGroupAssign_length, comGroupAssign_getD]
    by_cases h1 : chans.getD j 0 ∈ ucs
    · by_cases h2 : j < chans.length
      · by_cases h3 : j < arr.length
        · rw [if_pos ⟨h1, h2, h3⟩, if_pos ⟨List.mem_cons_of_mem _ h1, h2, h3⟩]
        · rw [if_neg (fun h => h3 h.2.2), if_neg (fun h => h3 h.2.2),
            if_neg (fun h => h3 h.2.2)]
      · rw [if_neg (fun h => h2 h.2.1), if_neg (fun h => h2 h.1),
          if_neg (fun h => h2 h.2.1)]
    · rw [if_neg (fun h => h1 h.1)]
      by_cases h2 : chans.getD j 0 = mc
      · by_cases h3 : j < chans.length
        · by_cases h4 : j < arr.length
          · rw [if_pos ⟨h3, h2, h4⟩, if_pos ⟨h2 ▸ List.mem_cons_self _ _, h3, h4⟩, h2]
          · rw [if_neg (fun h => h4 h.2.2), if_neg (fun h => h4 h.2.2)]
        · rw [if_neg (fun h => h3 h.1), if_neg (fun h => h3 h.2.1)]
      · have h5 : chans.getD j 0 ∉ mc :: ucs := by
          intro h
          rcases List.mem_cons.mp h with h | h
          · exact h2 h
          · exact h1 h
        rw [if_neg (fun h => h2 h.2.1), if_neg (fun h => h5 h.1)]

theorem foldl_comGroupAssign_length (cfg : LocalizeCenterOfMass) (sqrtFn : ℚ → ℚ)
    (waveforms : List (List (List ℚ))) (chans : List Nat) (ucs : List Nat)
    (arr : List ComRecord) :
    (ucs.foldl (fun a mc => comGroupAssign cfg sqrtFn waveforms chans mc a) arr).length
      = arr.length := by
  induction ucs generalizing arr with
  | nil => rfl
  | cons mc ucs ih => rw [List.foldl_cons, ih, comGroupAssign_length]

/-- The default peak used to state indexed correspondences. -/
def peak0 : Peak := { sample_ind := 0, channel_ind := 0, segment_ind := 0 }

/-- Batched-by-channel `compute_buffer` of the center-of-mass step equals
the independent per-peak map whenever the feature is supported. -/
theorem com_compute_buffer_eq_map (cfg : LocalizeCenterOfMass) (sqrtFn : ℚ → ℚ)
    (traces : List (List ℚ)) (peaks : List Peak)
    (waveforms : List (List (List ℚ)))
    (h : supportedFeature cfg.feature = true) :
    cfg.compute_buffer sqrtFn traces peaks waveforms
      = some ((List.range peaks.length).map
          (fun i => comPerPeakRec cfg sqrtFn (waveforms.getD i [])
            ((peaks.getD i peak0).channel_ind))) := by
  rw [LocalizeCenterOfMass.compute_buffer]
  simp only [h, if_true]
  rw [foldlM_option_some]
  congr 1
  apply List.ext_getElem
  · rw [foldl_comGroupAssign_length, List.length_replicate, List.length_map,
      List.length_range]
  · intro n h1 h2
    have hn : n < peaks.length := by
      rw [foldl_comGroupAssign_length, List.length_replicate] at h1
      exact h1
    have hmem : (peaks.map Peak.channel_ind).getD n 0
        ∈ npUnique (peaks.map Peak.channel_ind) := by
      apply mem_npUnique.mpr
      rw [List.getD_eq_getElem _ _ (by simpa using hn)]
      exact List.getElem_mem _
    rw [← List.getD_eq_getElem _ ({ x := some 0, y := some 0 } : ComRecord) h1,
      foldl_comGroupAssign_getD]
    have hch : (peaks.map Peak.channel_ind).getD n 0
        = (peaks.getD n peak0).channel_ind := by
      rw [List.getD_eq_getElem _ _ (by simpa using hn), List.getElem_map,
        List.getD_eq_getElem _ _ hn]
    rw [if_pos ⟨hmem, by simpa using hn, by simp [hn]⟩, hch]
    rw [List.getElem_map, List.getElem_range]

/-! ### Monotonicity enforcer lemmas -/

/-- Two shell rings are disjoint: no index lies in both. -/
def ringsDisjoint (r1 r2 : List Nat) : Prop := ∀ x ∈ r1, x ∉ r2

instance (r1 r2 : List Nat) : Decidable (ringsDisjoint r1 r2) :=
  inferInstanceAs (Decidable (∀ x ∈ r1, x ∉ r2))

theorem foldl_min_congr (cs : List Nat) (f g : Nat → ℚ) (x : ℚ)
    (h : ∀ d ∈ cs, f d = g d) :
    cs.foldl (fun m d => min m (f d)) x = cs.foldl (fun m d => min m (g d)) x := by
  induction cs generalizing x with
  | nil => rfl
  | cons c cs ih =>
    rw [List.foldl_cons, List.foldl_cons, h c (List.mem_cons_self _ _)]
    exact ih _ (fun d hd => h d (List.mem_cons_of_mem _ hd))

theorem ringMin_congr (ring : List Nat) (f g : Nat → ℚ)
    (h : ∀ d ∈ ring, f d = g d) : ringMin ring f = ringMin ring g := by
  cases ring with
  | nil => rfl
  | cons c cs =>
    rw [ringMin, ringMin, h c (List.mem_cons_self _ _),
      foldl_min_congr cs f g _ (fun d hd => h d (List.mem_cons_of_mem _ hd))]

theorem enforceShellsGo_not_mem (rings : List (List Nat)) (prev : List Nat)
    (amps : Nat → ℚ) (c : Nat) (h : ∀ r ∈ rings, c ∉ r) :
    enforceShellsGo prev rings amps c = amps c := by
  induction rings generalizing prev amps with
  | nil => rfl
  | cons r rs ih =>
    rw [enforceShellsGo, ih _ _ (fun r2 h2 => h r2 (List.mem_cons_of_mem _ h2)),
      clampRing, if_neg (h r (List.mem_cons_self _ _))]

theorem enforceShellsGo_mono (rings : List (List Nat)) (prev : List Nat)
    (amps : Nat → ℚ) (hd : List.Pairwise ringsDisjoint (prev :: rings)) :
    ∀ k, k < rings.length → ∀ c ∈ rings.getD k [],
      enforceShellsGo prev rings amps c
        ≤ ringMin ((prev :: rings).getD k []) (enforceShellsGo prev rings amps) := by
  induction rings generalizing prev amps with
  | nil =>
    intro k hk
    exact absurd hk (Nat.not_lt_zero k)
  | cons r rs ih =>
    intro k hk c hc
    have hd1 := List.pairwise_cons.mp hd
    have hd2 := List.pairwise_cons.mp hd1.2
    rcases k with _ | k
    · have hcr : c ∈ r := hc
      have hc_not : ∀ r2 ∈ rs, c ∉ r2 := fun r2 h2 => hd2.1 r2 h2 c hcr
      have hgoal1 : enforceShellsGo prev (r :: rs) amps c
          = min (amps c) (ringMin prev amps) := by
        rw [enforceShellsGo, enforceShellsGo_not_mem _ _ _ _ hc_not, clampRing,
          if_pos hcr]
      have hpt : ∀ d ∈ prev,
          enforceShellsGo prev (r :: rs) amps d = amps d := by
        intro d hdprev
        rw [enforceShellsGo,
          enforceShellsGo_not_mem _ _ _ _
            (fun r2 h2 => hd1.1 r2 (List.mem_cons_of_mem _ h2) d hdprev),
          clampRing, if_neg (hd1.1 r (List.mem_cons_self _ _) d hdprev)]
      have hmin : ringMin ((prev :: r :: rs).getD 0 [])
          (enforceShellsGo prev (r :: rs) amps) = ringMin prev amps := by
        exact ringMin_congr _ _ _ hpt
      rw [hmin, hgoal1]
      exact min_le_right _ _
    · have hk2 : k < rs.length := Nat.lt_of_succ_lt_succ hk
      have := ih r (clampRing r (ringMin prev amps) amps) hd1.2 k hk2 c hc
      exact this

/-- After the (spec-modelled) enforcer runs, every amplitude of shell
ring k+1 is bounded by the minimum amplitude of ring k. -/
theorem enforce_decrease_shells_ptp_mono (shells : List (List Nat))
    (amps : Nat → ℚ) (hd : List.Pairwise ringsDisjoint shells) :
    ∀ k, k + 1 < shells.length → ∀ c ∈ shells.getD (k + 1) [],
      enforce_decrease_shells_ptp shells amps c
        ≤ ringMin (shells.getD k []) (enforce_decrease_shells_ptp shells amps) := by
  cases shells with
  | nil =>
    intro k hk
    exact absurd hk (Nat.not_lt_zero _)
  | cons r0 rest =>
    intro k hk c hc
    have hk2 : k < rest.length := Nat.lt_of_succ_lt_succ hk
    exact enforceShellsGo_mono rest r0 amps hd k hk2 c hc

/-- Shell ring 0 (the peak channel) is left unconstrained by the
enforcer. -/
theorem enforce_decrease_shells_ptp_shell0 (shells : List (List Nat))
    (amps : Nat → ℚ) (hd : List.Pairwise ringsDisjoint shells) :
    ∀ c ∈ shells.getD 0 [], enforce_decrease_shells_ptp shells amps c = amps c := by
  cases shells with
  | nil => intro c hc; exact absurd hc (List.not_mem_nil c)
  | cons r0 rest =>
    intro c hc
    rw [enforce_decrease_shells_ptp]
    exact enforceShellsGo_not_mem _ _ _ _
      (fun r2 h2 => (List.pairwise_cons.mp hd).1 r2 h2 c hc)

/-! ### A mutable-store model for the frame property

Numpy operations used by the strategies (`nonzero`, fancy indexing,
`ptp`, `mean`, `norm`, `dot`, slicing of a window followed by column
selection, record-field writes into the freshly created output array)
allocate new arrays; the single in-place operation in the sources is
`enforce_decrease_shells_ptp(wf_ptp, ..., in_place=True)` on the
per-peak `wf_ptp` buffer.  The store below tracks float buffers at
numeric addresses so that that one mutation is visible: each peak
allocates a fresh address for `wf_ptp`, mutates only it, and the
record handed to the solver is read back from the store. -/

/-- A store of float buffers at numeric addresses; `next` is the
allocation frontier, so every pre-existing input buffer lives at an
address `< next`. -/
structure Store where
  next : Nat
  mem : Nat → List ℚ

/-- Allocate a fresh buffer. -/
def Store.alloc (s : Store) (v : List ℚ) : Nat × Store :=
  (s.next,
    { next := s.next + 1, mem := fun a => if a = s.next then v else s.mem a })

/-- Overwrite the buffer at address `a` (an in-place numpy operation). -/
def Store.write (s : Store) (a : Nat) (v : List ℚ) : Store :=
  { next := s.next, mem := fun b => if b = a then v else s.mem b }

/-- The in-place enforcer call: read the buffer at `a`, clamp it shell
by shell, and write the result back to the same address. -/
def enforceShellsInPlace (shells : List (List Nat)) (s : Store) (a : Nat) :
    Store :=
  s.write a
    ((List.range (s.mem a).length).map
      (enforce_decrease_shells_ptp shells (fun i => (s.mem a).getD i 0)))

/-- The store-level monopolar peak iteration: when the ptp reduction
succeeds, allocate the fresh `wf_ptp` buffer, optionally mutate it in
place, and read it back for the solver call; when it raises
(`ValueError` on an empty window) nothing is allocated, the store is
untouched and the exception propagates. -/
def monoPerPeakSt (cfg : LocalizeMonopolarTriangulation)
    (solveMono : List ℚ → List (List ℚ) → ℚ → String → MonoRecord)
    (traces : List (List ℚ)) (peak : Peak) (s : Store) :
    Option MonoRecord × Store :=
  match monoWfPtp cfg traces peak with
  | none => (none, s)
  | some wf_ptp =>
    let pr := s.alloc wf_ptp
    let s2 :=
      match cfg.enforce_decrease_radial_parents with
      | some rp => enforceShellsInPlace (rp.getD peak.channel_ind []) pr.2 pr.1
      | none => pr.2
    (some (solveMono (s2.mem pr.1) (monoLocalLocs cfg peak.channel_ind)
      cfg.max_distance_um cfg.optimizer), s2)

/-- The store-level monopolar `compute_buffer`: the peak loop threading
the store, aborting (with the partial record list discarded) when a
peak's iteration raises. -/
def monoComputeBufferSt (cfg : LocalizeMonopolarTriangulation)
    (solveMono : List ℚ → List (List ℚ) → ℚ → String → MonoRecord)
    (traces : List (List ℚ)) : List Peak → Store →
    Option (List MonoRecord) × Store
  | [], s => (some [], s)
  | p :: ps, s =>
    match monoPerPeakSt cfg solveMono traces p s with
    | (none, s1) => (none, s1)
    | (some r, s1) =>
      match monoComputeBufferSt cfg solveMono traces ps s1 with
      | (none, s2) => (none, s2)
      | (some rs, s2) => (some (r :: rs), s2)

/-- The center-of-mass `compute_buffer` contains no in-place numpy
operation, so its store-level version leaves the store untouched. -/
def comComputeBufferSt (cfg : LocalizeCenterOfMass) (sqrtFn : ℚ → ℚ)
    (traces : List (List ℚ)) (peaks : List Peak)
    (waveforms : List (List (List ℚ))) (s : Store) :
    Option (List ComRecord) × Store :=
  (cfg.compute_buffer sqrtFn traces peaks waveforms, s)

/-- The peak-channel `compute_buffer` contains no in-place numpy
operation either. -/
def peakChanComputeBufferSt (cfg : LocalizePeakChannel)
    (traces : List (List ℚ)) (peaks : List Peak) (s : Store) :
    List PeakChanRecord × Store :=
  (cfg.compute_buffer traces peaks, s)

theorem monoPerPeakSt_next (cfg : LocalizeMonopolarTriangulation)
    (solveMono : List ℚ → List (List ℚ) → ℚ → String → MonoRecord)
    (traces : List (List ℚ)) (peak : Peak) (s : Store) :
    s.next ≤ (monoPerPeakSt cfg solveMono traces peak s).2.next := by
  cases h : monoWfPtp cfg traces peak with
  | none =>
    simp only [monoPerPeakSt, h]
    exact Nat.le_refl _
  | some wf_ptp =>
    simp only [monoPerPeakSt, h]
    cases cfg.enforce_decrease_radial_parents with
    | none =>
      simp only [Store.alloc]
      exact Nat.le_succ _
    | some rp =>
      simp only [Store.alloc, Store.write, enforceShellsInPlace]
      exact Nat.le_succ _

theorem monoPerPeakSt_frame (cfg : LocalizeMonopolarTriangulation)
    (solveMono : List ℚ → List (List ℚ) → ℚ → String → MonoRecord)
    (traces : List (List ℚ)) (peak : Peak) (s : Store) (a : Nat)
    (ha : a < s.next) :
    (monoPerPeakSt cfg solveMono traces peak s).2.mem a = s.mem a := by
  have hne : a ≠ s.next := Nat.ne_of_lt ha
  cases h : monoWfPtp cfg traces peak with
  | none => simp only [monoPerPeakSt, h]
  | some wf_ptp =>
    simp only [monoPerPeakSt, h]
    cases cfg.enforce_decrease_radial_parents with
    | none => simp [Store.alloc, hne]
    | some rp => simp [Store.alloc, Store.write, enforceShellsInPlace, hne]

theorem monoPerPeakSt_rec (cfg : LocalizeMonopolarTriangulation)
    (solveMono : List ℚ → List (List ℚ) → ℚ → String → MonoRecord)
    (traces : List (List ℚ)) (peak : Peak) (s : Store) :
    (monoPerPeakSt cfg solveMono traces peak s).1
      = monoPerPeakRec cfg solveMono traces peak := by
  rw [monoPerPeakRec]
  cases h : monoWfPtp cfg traces peak with
  | none => simp only [monoPerPeakSt, h, Option.map_none']
  | some wf_ptp =>
    simp only [monoPerPeakSt, h, Option.map_some', monoAmps]
    cases cfg.enforce_decrease_radial_parents with
    | none => simp [Store.alloc]
    | some rp => simp [Store.alloc, Store.write, enforceShellsInPlace]

theorem monoComputeBufferSt_spec (cfg : LocalizeMonopolarTriangulation)
    (solveMono : List ℚ → List (List ℚ) → ℚ → String → MonoRecord)
    (traces : List (List ℚ)) :
    ∀ (peaks : List Peak) (s : Store),
      (monoComputeBufferSt cfg solveMono traces peaks s).1
          = cfg.compute_buffer solveMono traces peaks
      ∧ s.next ≤ (monoComputeBufferSt cfg solveMono traces peaks s).2.next
      ∧ ∀ a, a < s.next →
          (monoComputeBufferSt cfg solveMono traces peaks s).2.mem a
            = s.mem a := by
  intro peaks
  induction peaks with
  | nil =>
    intro s
    exact ⟨rfl, Nat.le_refl _, fun a ha => rfl⟩
  | cons p ps ih =>
    intro s
    have hrec := monoPerPeakSt_rec cfg solveMono traces p s
    have hnext := monoPerPeakSt_next cfg solveMono traces p s
    have hframe := monoPerPeakSt_frame cfg solveMono traces p s
    rcases hps : monoPerPeakSt cfg solveMono traces p s with ⟨orec, s1⟩
    rw [hps] at hrec hnext
    have hframe1 : ∀ a, a < s.next → s1.mem a = s.mem a := by
      intro a ha
      have := hframe a ha
      rw [hps] at this
      exact this
    have hbuf : cfg.compute_buffer solveMono traces (p :: ps)
        = Option.bind (monoPerPeakRec cfg solveMono traces p)
            (fun r => Option.bind (cfg.compute_buffer solveMono traces ps)
              (fun rs => some (r :: rs))) := by
      rw [LocalizeMonopolarTriangulation.compute_buffer, List.mapM_cons]
      rfl
    rw [hbuf, ← hrec]
    cases orec with
    | none =>
      simp only [monoComputeBufferSt, hps, Option.none_bind]
      exact ⟨by trivial, hnext, hframe1⟩
    | some r =>
      rcases ih s1 with ⟨ih1, ih2, ih3⟩
      rcases hrest : monoComputeBufferSt cfg solveMono traces ps s1
        with ⟨ors, s2⟩
      rw [hrest] at ih1 ih2
      have ih3b : ∀ a, a < s1.next → s2.mem a = s1.mem a := by
        intro a ha
        have := ih3 a ha
        rw [hrest] at this
        exact this
      simp only [monoComputeBufferSt, hps, hrest, Option.some_bind, ← ih1]
      cases ors with
      | none =>
        exact ⟨by trivial, Nat.le_trans hnext ih2,
          fun a ha => (ih3b a (Nat.lt_of_lt_of_le ha hnext)).trans
            (hframe1 a ha)⟩
      | some rs =>
        exact ⟨by trivial, Nat.le_trans hnext ih2,
          fun a ha => (ih3b a (Nat.lt_of_lt_of_le ha hnext)).trans
            (hframe1 a ha)⟩

/-! ### Slice-boundary lemmas -/

theorem pySlice_length {α : Type} (l : List α) (start stop : Int) :
    (pySlice l start stop).length
      = min (pySliceIndex l.length stop - pySliceIndex l.length start)
          (l.length - pySliceIndex l.length start) := by
  rw [pySlice, List.length_take, List.length_drop]

/-- Near the end of the buffer the sliced window is silently shortened:
its length is `traces.length - (s - nbefore)`, strictly less than the
nominal `nbefore + nafter` samples. -/
theorem monoWindow_shortened (nbefore nafter : Nat) (traces : List (List ℚ))
    (s : Nat) (h1 : nbefore ≤ s) (h2 : s ≤ traces.length)
    (h3 : traces.length < s + nafter) :
    (monoWindow nbefore nafter traces s).length = traces.length - (s - nbefore)
      ∧ (monoWindow nbefore nafter traces s).length < nbefore + nafter := by
  have ha : pySliceIndex traces.length ((s : Int) - (nbefore : Int))
      = s - nbefore := by
    rw [pySliceIndex, if_neg (by omega)]
    omega
  have hb : pySliceIndex traces.length ((s : Int) + (nafter : Int))
      = traces.length := by
    rw [pySliceIndex, if_neg (by omega)]
    omega
  have hlen : (monoWindow nbefore nafter traces s).length
      = traces.length - (s - nbefore) := by
    rw [monoWindow, pySlice_length, ha, hb]
    omega
  exact ⟨hlen, by omega⟩

/-- A peak closer than `nbefore` samples to the buffer start makes the
slice start negative; Python wraps it to the end of the buffer, and
whenever the buffer is at least `nbefore + nafter` rows long the
resulting window is empty — silently, with no error. -/
theorem monoWindow_wraps_empty (nbefore nafter : Nat) (traces : List (List ℚ))
    (s : Nat) (h1 : s < nbefore) (h2 : nbefore + nafter ≤ traces.length)
    (h3 : nbefore - s ≤ traces.length) :
    monoWindow nbefore nafter traces s = [] := by
  have ha : pySliceIndex traces.length ((s : Int) - (nbefore : Int))
      = traces.length - (nbefore - s) := by
    rw [pySliceIndex, if_pos (by omega)]
    omega
  have hb : pySliceIndex traces.length ((s : Int) + (nafter : Int))
      = s + nafter := by
    rw [pySliceIndex, if_neg (by omega)]
    omega
  rw [monoWindow, pySlice, ha, hb]
  rw [show s + nafter - (traces.length - (nbefore - s)) = 0 by omega]
  exact List.take_zero _

/-! ### Small indexing helpers -/

theorem zipWith_map_same {α β γ δ : Type} (l : List α) (f : α → β) (g : α → γ)
    (h : β → γ → δ) :
    List.zipWith h (l.map f) (l.map g) = l.map (fun a => h (f a) (g a)) := by
  induction l with
  | nil => rfl
  | cons a l ih => simp [ih]

theorem getD_map_lt {α β : Type} (l : List α) (f : α → β) (i : Nat)
    (h : i < l.length) (d : β) (d0 : α) :
    (l.map f).getD i d = f (l.getD i d0) := by
  rw [List.getD_eq_getElem _ _ (by simpa using h), List.getElem_map,
    List.getD_eq_getElem _ _ h]

theorem getD_range {n i : Nat} (h : i < n) : (List.range n).getD i 0 = i := by
  rw [List.getD_eq_getElem _ _ (by simpa using h)]
  simp

/-! ### mapM over Option -/

theorem mapM_option_cons {α β : Type} (f : α → Option β) (a : α)
    (l : List α) :
    (a :: l).mapM f
      = (f a).bind (fun b => (l.mapM f).bind (fun bs => some (b :: bs))) := by
  rw [List.mapM_cons]
  rfl

theorem mapM_option_head_none {α β : Type} (f : α → Option β) (a : α)
    (l : List α) (h : f a = none) : (a :: l).mapM f = none := by
  rw [mapM_option_cons, h]
  rfl

theorem mapM_option_spec {α β : Type} (f : α → Option β) (l : List α)
    (out : List β) (h : l.mapM f = some out) (d0 : α) (d1 : β) :
    out.length = l.length
      ∧ ∀ i, i < l.length → f (l.getD i d0) = some (out.getD i d1) := by
  induction l generalizing out with
  | nil =>
    rw [List.mapM_nil] at h
    have hout : out = [] := (Option.some.inj h).symm
    subst hout
    exact ⟨rfl, fun i hi => absurd hi (Nat.not_lt_zero i)⟩
  | cons a l ih =>
    rw [mapM_option_cons] at h
    cases hfa : f a with
    | none =>
      rw [hfa, Option.none_bind] at h
      exact Option.noConfusion h
    | some b =>
      rw [hfa, Option.some_bind] at h
      cases hml : l.mapM f with
      | none =>
        rw [hml, Option.none_bind] at h
        exact Option.noConfusion h
      | some bs =>
        rw [hml, Option.some_bind] at h
        have hout : out = b :: bs := (Option.some.inj h).symm
        subst hout
        rcases ih bs hml with ⟨ih1, ih2⟩
        refine ⟨by rw [List.length_cons, List.length_cons, ih1], ?_⟩
        intro i hi
        cases i with
        | zero => exact hfa ▸ rfl
        | succ i => exact ih2 i (Nat.lt_of_succ_lt_succ hi)

theorem mapM_option_eq_map {α β : Type} (f : α → Option β) (l : List α)
    (d : β) (h : ∀ a ∈ l, (f a).isSome = true) :
    l.mapM f = some (l.map (fun a => (f a).getD d)) := by
  induction l with
  | nil => rfl
  | cons a l ih =>
    rw [mapM_option_cons, ih (fun b hb => h b (List.mem_cons_of_mem _ hb)),
      List.map_cons]
    cases hfa : f a with
    | none =>
      have hsome := h a (List.mem_cons_self _ _)
      rw [hfa] at hsome
      simp at hsome
    | some b => simp

theorem ptpList_isSome {l : List ℚ} (h : l ≠ []) :
    (ptpList l).isSome = true := by
  cases l with
  | nil => exact absurd rfl h
  | cons x xs => rfl

/-! ### Concrete fixtures -/

/-- A 4-channel linear probe with 20 µm pitch, all channels mutually
neighbours, one sample before and one after the peak (the end-to-end
example of spec §8). -/
def baseFix : PipelineStepBase :=
  { contact_locations := [[0, 0], [20, 0], [40, 0], [60, 0]],
    neighbours_mask :=
      [[true, true, true, true], [true, true, true, true],
       [true, true, true, true], [true, true, true, true]],
    nbefore := 1, nafter := 1 }

/-- Center-of-mass step on the fixture probe with the default feature. -/
def cfgPtpFix : LocalizeCenterOfMass := LocalizeCenterOfMass.init baseFix "ptp"

/-- A peak on channel 2 at sample 1. -/
def peakFix : Peak := { sample_ind := 1, channel_ind := 2, segment_ind := 0 }

/-- A snippet whose per-channel ptp values are `[1, 4, 10, 4]`. -/
def wfFix : List (List ℚ) := [[0, 0, 0, 0], [1, 4, 10, 4]]

/-- An all-zero snippet. -/
def wfZeroFix : List (List ℚ) := [[0, 0, 0, 0], [0, 0, 0, 0]]

/-- A concrete stand-in for the external nonlinear solver. -/
def solveMonoFix : List ℚ → List (List ℚ) → ℚ → String → MonoRecord :=
  fun amps locs maxd _ =>
    { x := amps.sum, y := (locs.map (fun r => r.getD 0 0)).sum, z := maxd,
      alpha := 0 }

/-- Shell partitions of the fixture probe's channels (one per reference
channel). -/
def shellsFix : List (List (List Nat)) :=
  [[[0], [1, 2], [3]], [[1], [0, 2], [3]], [[2], [1, 3], [0]],
   [[3], [2], [1], [0]]]

/-- Monopolar step on the fixture probe with decrease enforcement on. -/
def monoCfgFix : LocalizeMonopolarTriangulation :=
  LocalizeMonopolarTriangulation.init baseFix 1000
    "minimize_with_log_penality" true shellsFix

/-- A 3-row, 4-channel trace buffer. -/
def tracesFix : List (List ℚ) := [[0, 0, 0, 0], [1, 4, 10, 4], [0, 0, 0, 0]]

/-- A 10-row trace buffer for the boundary cases. -/
def tracesTen : List (List ℚ) := List.replicate 10 []

/-! ### Claim theorems -/

theorem comPerPeakRec_centroid (cfg : LocalizeCenterOfMass) (sqrtFn : ℚ → ℚ)
    (wf : List (List ℚ)) (chan : Nat) :
    comPerPeakRec cfg sqrtFn wf chan
      = { x := npDiv
              (((nonzeroIdx (cfg.base.neighbours_mask.getD chan [])).map
                (fun c => featureWeight cfg.feature sqrtFn cfg.base.nbefore wf c
                  * (cfg.base.contact_locations.getD c []).getD 0 0)).sum)
              (((nonzeroIdx (cfg.base.neighbours_mask.getD chan [])).map
                (featureWeight cfg.feature sqrtFn cfg.base.nbefore wf)).sum),
          y := npDiv
              (((nonzeroIdx (cfg.base.neighbours_mask.getD chan [])).map
                (fun c => featureWeight cfg.feature sqrtFn cfg.base.nbefore wf c
                  * (cfg.base.contact_locations.getD c []).getD 1 0)).sum)
              (((nonzeroIdx (cfg.base.neighbours_mask.getD chan [])).map
                (featureWeight cfg.feature sqrtFn cfg.base.nbefore wf)).sum) } := by
  simp only [comPerPeakRec, comWeights]
  rw [zipWith_map_same, zipWith_map_same]

/-- C1: every `(x, y)` record the center-of-mass `compute_buffer` emits
is the weighted centroid `Σ(weight_c · position_c) / Σ(weight_c)` taken
over exactly the neighbour channels `c` of the peak's channel (the true
entries of its `neighbours_mask` row), where `weight_c` is the
configured feature applied to that neighbour's snippet column. -/
theorem C1_com_centroid (cfg : LocalizeCenterOfMass) (sqrtFn : ℚ → ℚ)
    (traces : List (List ℚ)) (peaks : List Peak)
    (waveforms : List (List (List ℚ))) (out : List ComRecord) (i : Nat)
    (hfeat : supportedFeature cfg.feature = true)
    (hout : cfg.compute_buffer sqrtFn traces peaks waveforms = some out)
    (hi : i < peaks.length) :
    out.getD i { x := none, y := none }
      = { x := npDiv
              (((nonzeroIdx (cfg.base.neighbours_mask.getD
                    (peaks.getD i peak0).channel_ind [])).map
                (fun c => featureWeight cfg.feature sqrtFn cfg.base.nbefore
                    (waveforms.getD i []) c
                  * (cfg.base.contact_locations.getD c []).getD 0 0)).sum)
              (((nonzeroIdx (cfg.base.neighbours_mask.getD
                    (peaks.getD i peak0).channel_ind [])).map
                (featureWeight cfg.feature sqrtFn cfg.base.nbefore
                  (waveforms.getD i []))).sum),
          y := npDiv
              (((nonzeroIdx (cfg.base.neighbours_mask.getD
                    (peaks.getD i peak0).channel_ind [])).map
                (fun c => featureWeight cfg.feature sqrtFn cfg.base.nbefore
                    (waveforms.getD i []) c
                  * (cfg.base.contact_locations.getD c []).getD 1 0)).sum)
              (((nonzeroIdx (cfg.base.neighbours_mask.getD
                    (peaks.getD i peak0).channel_ind [])).map
                (featureWeight cfg.feature sqrtFn cfg.base.nbefore
                  (waveforms.getD i []))).sum) } := by
  rw [com_compute_buffer_eq_map _ _ _ _ _ hfeat] at hout
  have h2 : out = (List.range peaks.length).map
      (fun i => comPerPeakRec cfg sqrtFn (waveforms.getD i [])
        ((peaks.getD i peak0).channel_ind)) := (Option.some.inj hout).symm
  subst h2
  rw [getD_map_lt _ _ i (by simpa using hi) _ 0, getD_range hi,
    comPerPeakRec_centroid]

/-- C2: for each of the three strategies, `compute_buffer` returns one
record per input peak, and the record at index `i` is the one computed
from `peaks[i]` — no peak is dropped or reordered.  For the
center-of-mass and monopolar steps the statement is conditional on the
call returning at all, mirroring their modelled exceptions (unsupported
feature, respectively zero-size ptp reduction on an empty boundary
window); when a sequence is returned it is index-aligned and complete. -/
theorem C2_order_and_length (cfgP : LocalizePeakChannel)
    (cfgM : LocalizeMonopolarTriangulation) (cfgC : LocalizeCenterOfMass)
    (sqrtFn : ℚ → ℚ)
    (solveMono : List ℚ → List (List ℚ) → ℚ → String → MonoRecord)
    (traces : List (List ℚ)) (peaks : List Peak)
    (waveforms : List (List (List ℚ))) (outM : List MonoRecord)
    (out : List ComRecord) (i : Nat) :
    ((cfgP.compute_buffer traces peaks).length = peaks.length
      ∧ (i < peaks.length →
          (cfgP.compute_buffer traces peaks).getD i { x := 0, y := 0 }
            = peakChanPerPeakRec cfgP (peaks.getD i peak0)))
    ∧ (cfgM.compute_buffer solveMono traces peaks = some outM →
        outM.length = peaks.length
        ∧ (i < peaks.length →
            monoPerPeakRec cfgM solveMono traces (peaks.getD i peak0)
              = some (outM.getD i { x := 0, y := 0, z := 0, alpha := 0 })))
    ∧ (cfgC.compute_buffer sqrtFn traces peaks waveforms = some out →
        out.length = peaks.length
        ∧ (i < peaks.length →
            out.getD i { x := none, y := none }
              = comPerPeakRec cfgC sqrtFn (waveforms.getD i [])
                  ((peaks.getD i peak0).channel_ind))) := by
  refine ⟨⟨List.length_map _ _, fun hi => ?_⟩,
    fun houtM => ?_, fun hout => ?_⟩
  · rw [LocalizePeakChannel.compute_buffer, getD_map_lt _ _ i hi _ peak0]
  · rw [LocalizeMonopolarTriangulation.compute_buffer] at houtM
    rcases mapM_option_spec (monoPerPeakRec cfgM solveMono traces) peaks outM
      houtM peak0 { x := 0, y := 0, z := 0, alpha := 0 } with ⟨h1, h2⟩
    exact ⟨h1, fun hi => h2 i hi⟩
  · cases hfeat : supportedFeature cfgC.feature with
    | true =>
      rw [com_compute_buffer_eq_map _ _ _ _ _ hfeat] at hout
      have h2 : out = (List.range peaks.length).map
          (fun i => comPerPeakRec cfgC sqrtFn (waveforms.getD i [])
            ((peaks.getD i peak0).channel_ind)) := (Option.some.inj hout).symm
      subst h2
      refine ⟨by rw [List.length_map, List.length_range], fun hi => ?_⟩
      rw [getD_map_lt _ _ i (by simpa using hi) _ 0, getD_range hi]
    | false =>
      cases peaks with
      | nil =>
        have hnil : out = [] := Option.some.inj hout.symm
        subst hnil
        exact ⟨rfl, fun hi => absurd hi (Nat.not_lt_zero i)⟩
      | cons p ps =>
        exfalso
        rw [LocalizeCenterOfMass.compute_buffer] at hout
        simp only [hfeat, Bool.false_eq_true, if_false] at hout
        rw [foldlM_option_none _ _
          (List.ne_nil_of_mem (mem_npUnique.mpr
            (List.mem_map_of_mem Peak.channel_ind
              (List.mem_cons_self p ps))))] at hout
        exact Option.noConfusion hout

/-- C3: the peak-channel strategy's record `i` carries exactly the first
two coordinates of the geometry position of `peaks[i].channel_ind`, and
the output does not depend on the trace buffer contents. -/
theorem C3_peak_channel_lookup (cfg : LocalizePeakChannel)
    (traces traces2 : List (List ℚ)) (peaks : List Peak) (i : Nat) :
    (i < peaks.length →
      (cfg.compute_buffer traces peaks).getD i { x := 0, y := 0 }
        = { x := (cfg.base.contact_locations.getD
                (peaks.getD i peak0).channel_ind []).getD 0 0,
            y := (cfg.base.contact_locations.getD
                (peaks.getD i peak0).channel_ind []).getD 1 0 })
    ∧ cfg.compute_buffer traces peaks = cfg.compute_buffer traces2 peaks := by
  constructor
  · intro hi
    rw [LocalizePeakChannel.compute_buffer, getD_map_lt _ _ i hi _ peak0]
    rfl
  · rfl

/-- C4: the monotonicity enforcer touches a peak's per-neighbour ptp
vector iff `enforce_decrease` was configured true at construction (the
radial-parent structure is built iff the flag is set, and the enforcer
runs iff that structure exists); after it runs, every amplitude of
shell ring k+1 is at most the minimum amplitude of ring k, while the
shell-0 (peak-channel) amplitude is left exactly as it was. -/
theorem C4_enforcer_iff_and_mono (base : PipelineStepBase) (mdu : ℚ)
    (opt : String) (shellsAll : List (List (List Nat))) (e : Bool) (c : Nat)
    (wf_ptp : List ℚ)
    (hd : List.Pairwise ringsDisjoint (shellsAll.getD c [])) :
    (monoAmps (LocalizeMonopolarTriangulation.init base mdu opt e shellsAll)
        wf_ptp c
      = if e then
          (List.range wf_ptp.length).map
            (enforce_decrease_shells_ptp (shellsAll.getD c [])
              (fun i => wf_ptp.getD i 0))
        else wf_ptp)
    ∧ (∀ k, k + 1 < (shellsAll.getD c []).length →
        ∀ ch ∈ (shellsAll.getD c []).getD (k + 1) [],
          enforce_decrease_shells_ptp (shellsAll.getD c [])
              (fun i => wf_ptp.getD i 0) ch
            ≤ ringMin ((shellsAll.getD c []).getD k [])
                (enforce_decrease_shells_ptp (shellsAll.getD c [])
                  (fun i => wf_ptp.getD i 0)))
    ∧ (∀ ch ∈ (shellsAll.getD c []).getD 0 [],
        enforce_decrease_shells_ptp (shellsAll.getD c [])
            (fun i => wf_ptp.getD i 0) ch
          = wf_ptp.getD ch 0) := by
  refine ⟨?_, enforce_decrease_shells_ptp_mono _ _ hd,
    enforce_decrease_shells_ptp_shell0 _ _ hd⟩
  cases e with
  | true => rfl
  | false => rfl

/-- C5 counterexample: with the default `ptp` feature, an all-zero
snippet gives every neighbour weight zero, and `compute_buffer` still
reaches its division with a zero denominator — the source has no guard
and documents no fallback, the claim's "does not perform an unguarded
division by zero ... documented sentinel" is false as stated.  What the
code does instead: numpy float semantics turn the division into
non-finite coordinates (modelled `none`), nothing raises, and the
second peak of the buffer is still processed normally. -/
theorem C5_counterexample :
    (comWeights cfgPtpFix id wfZeroFix 0).sum = 0
    ∧ LocalizeCenterOfMass.compute_buffer cfgPtpFix id []
        [peak0, { sample_ind := 1, channel_ind := 0, segment_ind := 0 }]
        [wfZeroFix, wfFix]
      = some [{ x := none, y := none },
          { x := some (720 / 19), y := some 0 }] := by
  have hsum : (comWeights cfgPtpFix id wfZeroFix 0).sum = 0 := by
    norm_num [comWeights, cfgPtpFix, baseFix, LocalizeCenterOfMass.init,
      nonzeroIdx, featureWeight, ptpList, listMax, listMin, colD, wfZeroFix,
      List.range_succ]
  refine ⟨hsum, ?_⟩
  rw [com_compute_buffer_eq_map cfgPtpFix id _ _ _ (by decide)]
  norm_num [comPerPeakRec, comWeights, cfgPtpFix, baseFix,
    LocalizeCenterOfMass.init, nonzeroIdx, featureWeight, ptpList, listMax,
    listMin, colD, npDiv, wfZeroFix, wfFix, peak0, List.range_succ]

/-- C5 (amended): the division is unguarded, but it is performed with
numpy float semantics: a zero weight sum makes that one peak's record
the non-finite sentinel `(none, none)` deterministically, no exception
is raised, and every other peak of the buffer is still processed and
emitted. -/
theorem C5_amended_zero_weight_sentinel (cfg : LocalizeCenterOfMass)
    (sqrtFn : ℚ → ℚ) (traces : List (List ℚ)) (peaks : List Peak)
    (waveforms : List (List (List ℚ))) (wf : List (List ℚ)) (chan : Nat)
    (hfeat : supportedFeature cfg.feature = true) :
    ((comWeights cfg sqrtFn wf chan).sum = 0 →
      comPerPeakRec cfg sqrtFn wf chan = { x := none, y := none })
    ∧ cfg.compute_buffer sqrtFn traces peaks waveforms
        = some ((List.range peaks.length).map
            (fun i => comPerPeakRec cfg sqrtFn (waveforms.getD i [])
              ((peaks.getD i peak0).channel_ind))) := by
  refine ⟨fun hzero => ?_, com_compute_buffer_eq_map _ _ _ _ _ hfeat⟩
  simp only [comPerPeakRec]
  rw [hzero]
  simp [npDiv]

/-- C6 counterexample: constructing the center-of-mass step with the
unsupported feature name succeeds — `__init__` stores the name without
any validation, so no configuration error is raised at construction
time, contrary to the claim.  The failure surfaces only during the
first `compute_buffer` call that has at least one peak (the unbound
`wf_data` raises, modelled `none`), while an empty buffer even
succeeds. -/
theorem C6_counterexample :
    (LocalizeCenterOfMass.init baseFix "not_a_feature").feature
        = "not_a_feature"
    ∧ supportedFeature "not_a_feature" = false
    ∧ LocalizeCenterOfMass.compute_buffer
        (LocalizeCenterOfMass.init baseFix "not_a_feature") id [] [peakFix]
        [wfFix] = none
    ∧ LocalizeCenterOfMass.compute_buffer
        (LocalizeCenterOfMass.init baseFix "not_a_feature") id [] [] []
      = some [] :=
  ⟨rfl, rfl, rfl, rfl⟩

/-- C6 (amended): an unsupported feature name is accepted silently at
construction; the error is raised during the first `compute_buffer`
call that processes at least one peak (and a peak-less buffer still
returns an empty result). -/
theorem C6_amended_feature_fails_at_compute (base : PipelineStepBase)
    (feature : String) (sqrtFn : ℚ → ℚ) (traces : List (List ℚ))
    (peaks : List Peak) (waveforms : List (List (List ℚ)))
    (hfeat : supportedFeature feature = false) :
    (LocalizeCenterOfMass.init base feature).feature = feature
    ∧ (peaks ≠ [] →
        (LocalizeCenterOfMass.init base feature).compute_buffer sqrtFn traces
          peaks waveforms = none)
    ∧ (LocalizeCenterOfMass.init base feature).compute_buffer sqrtFn traces
        [] waveforms = some [] := by
  refine ⟨rfl, fun hne => ?_, rfl⟩
  rw [LocalizeCenterOfMass.compute_buffer]
  simp only [LocalizeCenterOfMass.init, hfeat, Bool.false_eq_true, if_false]
  cases peaks with
  | nil => exact absurd rfl hne
  | cons p ps =>
    exact foldlM_option_none _ _
      (List.ne_nil_of_mem (mem_npUnique.mpr
        (List.mem_map_of_mem Peak.channel_ind (List.mem_cons_self p ps))))

/-- C7: the batched, grouped-by-channel center-of-mass computation is
observationally identical to processing every peak independently in
input order — grouping is an unobservable optimization. -/
theorem C7_batching_unobservable (cfg : LocalizeCenterOfMass)
    (sqrtFn : ℚ → ℚ) (traces : List (List ℚ)) (peaks : List Peak)
    (waveforms : List (List (List ℚ)))
    (hfeat : supportedFeature cfg.feature = true) :
    cfg.compute_buffer sqrtFn traces peaks waveforms
      = some ((List.range peaks.length).map
          (fun i => comPerPeakRec cfg sqrtFn (waveforms.getD i [])
            ((peaks.getD i peak0).channel_ind))) :=
  com_compute_buffer_eq_map cfg sqrtFn traces peaks waveforms hfeat

/-- C8: `localize_peaks` asserts the method name against
`possible_localization_methods` before anything else runs: an unknown
name yields the configuration error regardless of the pipeline (no
buffer is processed), and each of the three known names dispatches to
its step without error. -/
theorem C8_method_validation {α : Type}
    (runPipeline : LocalizeStep → List Peak → α) (method : String)
    (peaks : List Peak) :
    (method ∉ possible_localization_methods →
      localize_peaks runPipeline method peaks
        = Except.error "Method is not supported")
    ∧ (method ∈ possible_localization_methods →
        ∃ step, localize_peaks_dispatch method = Except.ok step
          ∧ localize_peaks runPipeline method peaks
              = Except.ok (runPipeline step peaks)) := by
  constructor
  · intro h
    rw [localize_peaks, localize_peaks_dispatch, if_neg h]
  · intro h
    simp only [possible_localization_methods, List.mem_cons,
      List.not_mem_nil, or_false] at h
    rcases h with h | h | h <;> subst h
    · exact ⟨LocalizeStep.peak_channel, rfl, rfl⟩
    · exact ⟨LocalizeStep.center_of_mass, rfl, rfl⟩
    · exact ⟨LocalizeStep.monopolar_triangulation, rfl, rfl⟩

/-- C9: no `compute_buffer` mutates its inputs.  In the store model,
the monopolar step's only write lands on the freshly allocated per-peak
`wf_ptp` buffer, so every buffer that existed before the call is
unchanged afterwards and the emitted records agree with the pure
embedding; the center-of-mass and peak-channel steps contain no
in-place operation at all and leave the store untouched. -/
theorem C9_frame_no_input_mutation (cfgM : LocalizeMonopolarTriangulation)
    (cfgC : LocalizeCenterOfMass) (cfgP : LocalizePeakChannel)
    (solveMono : List ℚ → List (List ℚ) → ℚ → String → MonoRecord)
    (sqrtFn : ℚ → ℚ) (traces : List (List ℚ)) (peaks : List Peak)
    (waveforms : List (List (List ℚ))) (s : Store) (a : Nat)
    (ha : a < s.next) :
    (monoComputeBufferSt cfgM solveMono traces peaks s).2.mem a = s.mem a
    ∧ (monoComputeBufferSt cfgM solveMono traces peaks s).1
        = cfgM.compute_buffer solveMono traces peaks
    ∧ (comComputeBufferSt cfgC sqrtFn traces peaks waveforms s).2 = s
    ∧ (peakChanComputeBufferSt cfgP traces peaks s).2 = s := by
  rcases monoComputeBufferSt_spec cfgM solveMono traces peaks s
    with ⟨h1, h2, h3⟩
  exact ⟨h3 a ha, h1, rfl, rfl⟩

/-- C10 counterexample: the claim says the boundary extraction "raises
no error" and that "the ptp amplitudes fed to the fit are computed from
whatever samples that slice returns".  In the very sub-case the claim
names (`sample_index < nbefore` with a buffer of at least
`nbefore + nafter` rows), the slice indeed raises nothing and returns
the empty window — but then `wf.ptp(axis=0)` is a zero-size reduction
that raises `ValueError` (modelled `none`): no amplitudes reach the
fit and no record is emitted for the buffer. -/
theorem C10_counterexample :
    monoWindow monoCfgFix.base.nbefore monoCfgFix.base.nafter tracesTen 0 = []
    ∧ monoChanInds monoCfgFix 0 = [0, 1, 2, 3]
    ∧ monoWfPtp monoCfgFix tracesTen
        { sample_ind := 0, channel_ind := 0, segment_ind := 0 } = none
    ∧ monoCfgFix.compute_buffer solveMonoFix tracesTen
        [{ sample_ind := 0, channel_ind := 0, segment_ind := 0 }] = none :=
  ⟨rfl, rfl, rfl, rfl⟩

/-- C10 (amended): the window *slice* raises no error near buffer
edges: within `nafter` samples of the buffer end it silently yields a
shortened window (fewer than `nbefore + nafter` rows), and with
`sample_index < nbefore` the negative start wraps to the buffer end —
empty whenever the buffer has at least `nbefore + nafter` rows.  On a
nonempty window the per-neighbour ptp amplitudes fed to the fit are
computed from exactly the rows the slice returned; on an empty window
the subsequent `wf.ptp(axis=0)` zero-size reduction raises
`ValueError` (modelled `none`) as soon as the peak has a neighbour, so
no amplitudes reach the fit and the buffer emits no records. -/
theorem C10_amended_window_boundary (cfg : LocalizeMonopolarTriangulation)
    (solveMono : List ℚ → List (List ℚ) → ℚ → String → MonoRecord)
    (nbefore nafter : Nat) (traces : List (List ℚ)) (s : Nat) (peak : Peak)
    (rest : List Peak) :
    (nbefore ≤ s → s ≤ traces.length → traces.length < s + nafter →
      (monoWindow nbefore nafter traces s).length
          = traces.length - (s - nbefore)
        ∧ (monoWindow nbefore nafter traces s).length < nbefore + nafter)
    ∧ (s < nbefore → nbefore + nafter ≤ traces.length →
        nbefore - s ≤ traces.length → monoWindow nbefore nafter traces s = [])
    ∧ (monoWindow cfg.base.nbefore cfg.base.nafter traces peak.sample_ind = []
        → monoChanInds cfg peak.channel_ind ≠ [] →
        monoWfPtp cfg traces peak = none
          ∧ cfg.compute_buffer solveMono traces (peak :: rest) = none)
    ∧ (monoWindow cfg.base.nbefore cfg.base.nafter traces peak.sample_ind ≠ []
        → monoWfPtp cfg traces peak
            = some ((monoChanInds cfg peak.channel_ind).map
                (fun c => (ptpList (colD (monoWindow cfg.base.nbefore
                    cfg.base.nafter traces peak.sample_ind) c)).getD 0))) := by
  refine ⟨fun h1 h2 h3 => monoWindow_shortened nbefore nafter traces s h1 h2 h3,
    fun h1 h2 h3 => monoWindow_wraps_empty nbefore nafter traces s h1 h2 h3,
    fun hw hchan => ?_, fun hw => ?_⟩
  · have hwf : monoWfPtp cfg traces peak = none := by
      rw [monoWfPtp]
      cases hci : monoChanInds cfg peak.channel_ind with
      | nil => exact absurd hci hchan
      | cons c cs =>
        apply mapM_option_head_none
        rw [hw]
        rfl
    refine ⟨hwf, ?_⟩
    rw [LocalizeMonopolarTriangulation.compute_buffer]
    apply mapM_option_head_none
    rw [monoPerPeakRec, hwf]
    rfl
  · rw [monoWfPtp]
    apply mapM_option_eq_map
    intro c hc
    apply ptpList_isSome
    intro hcol
    exact hw (List.map_eq_nil_iff.mp hcol)

/-! ### Witnesses -/

/-- Peak-channel step on the fixture probe. -/
def peakChanFix : LocalizePeakChannel := { base := baseFix }

/-- A concrete stand-in for the external execution engine. -/
def runPipelineFix : LocalizeStep → List Peak → Nat :=
  fun _ peaks => peaks.length

/-- A store with one pre-existing buffer at address 0. -/
def storeFix : Store := { next := 1, mem := fun _ => [] }

/-- The record list the monopolar step emits on the fixture buffer
(one peak, whose window spans rows 0 and 1 of `tracesFix`). -/
def monoOutFix : List MonoRecord :=
  [(monoPerPeakRec monoCfgFix solveMonoFix tracesFix peakFix).getD
    { x := 0, y := 0, z := 0, alpha := 0 }]

theorem C1_witness :
    supportedFeature cfgPtpFix.feature = true
    ∧ ([comPerPeakRec cfgPtpFix id wfFix 2] : List ComRecord).getD 0
          { x := none, y := none }
        = { x := npDiv
                (((nonzeroIdx (cfgPtpFix.base.neighbours_mask.getD 2 [])).map
                  (fun c => featureWeight cfgPtpFix.feature id
                      cfgPtpFix.base.nbefore wfFix c
                    * (cfgPtpFix.base.contact_locations.getD c []).getD 0 0)).sum)
                (((nonzeroIdx (cfgPtpFix.base.neighbours_mask.getD 2 [])).map
                  (featureWeight cfgPtpFix.feature id
                    cfgPtpFix.base.nbefore wfFix)).sum),
            y := npDiv
                (((nonzeroIdx (cfgPtpFix.base.neighbours_mask.getD 2 [])).map
                  (fun c => featureWeight cfgPtpFix.feature id
                      cfgPtpFix.base.nbefore wfFix c
                    * (cfgPtpFix.base.contact_locations.getD c []).getD 1 0)).sum)
                (((nonzeroIdx (cfgPtpFix.base.neighbours_mask.getD 2 [])).map
                  (featureWeight cfgPtpFix.feature id
                    cfgPtpFix.base.nbefore wfFix)).sum) } := by
  constructor
  · decide
  · have hout : cfgPtpFix.compute_buffer id [] [peakFix] [wfFix]
        = some [comPerPeakRec cfgPtpFix id wfFix 2] :=
      (com_compute_buffer_eq_map cfgPtpFix id [] [peakFix] [wfFix]
        (by decide)).trans rfl
    exact C1_com_centroid cfgPtpFix id [] [peakFix] [wfFix] _ 0 (by decide)
      hout (by decide)

theorem C2_witness :
    ((peakChanFix.compute_buffer tracesFix [peakFix]).length = 1
      ∧ (peakChanFix.compute_buffer tracesFix [peakFix]).getD 0
            { x := 0, y := 0 }
          = peakChanPerPeakRec peakChanFix peakFix)
    ∧ (monoOutFix.length = 1
      ∧ monoPerPeakRec monoCfgFix solveMonoFix tracesFix peakFix
          = some (monoOutFix.getD 0 { x := 0, y := 0, z := 0, alpha := 0 }))
    ∧ (([comPerPeakRec cfgPtpFix id wfFix 2] : List ComRecord).length = 1
      ∧ ([comPerPeakRec cfgPtpFix id wfFix 2] : List ComRecord).getD 0
            { x := none, y := none }
          = comPerPeakRec cfgPtpFix id wfFix 2) := by
  have hout : cfgPtpFix.compute_buffer id tracesFix [peakFix] [wfFix]
      = some [comPerPeakRec cfgPtpFix id wfFix 2] :=
    (com_compute_buffer_eq_map cfgPtpFix id tracesFix [peakFix] [wfFix]
      (by decide)).trans rfl
  have houtM : monoCfgFix.compute_buffer solveMonoFix tracesFix [peakFix]
      = some monoOutFix := rfl
  have h := C2_order_and_length peakChanFix monoCfgFix cfgPtpFix id
    solveMonoFix tracesFix [peakFix] [wfFix] monoOutFix
    [comPerPeakRec cfgPtpFix id wfFix 2] 0
  exact ⟨⟨h.1.1, h.1.2 (by decide)⟩,
    ⟨(h.2.1 houtM).1, (h.2.1 houtM).2 (by decide)⟩,
    ⟨(h.2.2 hout).1, (h.2.2 hout).2 (by decide)⟩⟩

theorem C3_witness :
    (peakChanFix.compute_buffer tracesFix [peakFix]).getD 0 { x := 0, y := 0 }
        = { x := (peakChanFix.base.contact_locations.getD 2 []).getD 0 0,
            y := (peakChanFix.base.contact_locations.getD 2 []).getD 1 0 }
    ∧ peakChanFix.compute_buffer tracesFix [peakFix]
        = peakChanFix.compute_buffer [] [peakFix] := by
  have h := C3_peak_channel_lookup peakChanFix tracesFix [] [peakFix] 0
  exact ⟨h.1 (by decide), h.2⟩

theorem C4_witness :
    List.Pairwise ringsDisjoint (shellsFix.getD 0 [])
    ∧ ((monoAmps monoCfgFix ([5, 9, 2, 7] : List ℚ) 0
        = if true then
            (List.range ([5, 9, 2, 7] : List ℚ).length).map
              (enforce_decrease_shells_ptp (shellsFix.getD 0 [])
                (fun i => ([5, 9, 2, 7] : List ℚ).getD i 0))
          else [5, 9, 2, 7])
      ∧ (∀ k, k + 1 < (shellsFix.getD 0 []).length →
          ∀ ch ∈ (shellsFix.getD 0 []).getD (k + 1) [],
            enforce_decrease_shells_ptp (shellsFix.getD 0 [])
                (fun i => ([5, 9, 2, 7] : List ℚ).getD i 0) ch
              ≤ ringMin ((shellsFix.getD 0 []).getD k [])
                  (enforce_decrease_shells_ptp (shellsFix.getD 0 [])
                    (fun i => ([5, 9, 2, 7] : List ℚ).getD i 0)))
      ∧ (∀ ch ∈ (shellsFix.getD 0 []).getD 0 [],
          enforce_decrease_shells_ptp (shellsFix.getD 0 [])
              (fun i => ([5, 9, 2, 7] : List ℚ).getD i 0) ch
            = ([5, 9, 2, 7] : List ℚ).getD ch 0)) :=
  ⟨by decide,
    C4_enforcer_iff_and_mono baseFix 1000 "minimize_with_log_penality"
      shellsFix true 0 [5, 9, 2, 7] (by decide)⟩

theorem C5_witness :
    supportedFeature cfgPtpFix.feature = true
    ∧ (comWeights cfgPtpFix id wfZeroFix 0).sum = 0
    ∧ comPerPeakRec cfgPtpFix id wfZeroFix 0 = { x := none, y := none }
    ∧ cfgPtpFix.compute_buffer id [] [peak0] [wfZeroFix]
        = some ((List.range ([peak0] : List Peak).length).map
            (fun i => comPerPeakRec cfgPtpFix id
              (([wfZeroFix] : List (List (List ℚ))).getD i [])
              ((([peak0] : List Peak).getD i peak0).channel_ind))) := by
  have hsum : (comWeights cfgPtpFix id wfZeroFix 0).sum = 0 := by
    norm_num [comWeights, cfgPtpFix, baseFix, LocalizeCenterOfMass.init,
      nonzeroIdx, featureWeight, ptpList, listMax, listMin, colD, wfZeroFix,
      List.range_succ]
  have h := C5_amended_zero_weight_sentinel cfgPtpFix id [] [peak0]
    [wfZeroFix] wfZeroFix 0 (by decide)
  exact ⟨by decide, hsum, h.1 hsum, h.2⟩

theorem C6_witness :
    supportedFeature "bad_feature" = false
    ∧ (LocalizeCenterOfMass.init baseFix "bad_feature").feature
        = "bad_feature"
    ∧ (LocalizeCenterOfMass.init baseFix "bad_feature").compute_buffer id
        tracesFix [peakFix] [wfFix] = none
    ∧ (LocalizeCenterOfMass.init baseFix "bad_feature").compute_buffer id
        tracesFix [] [wfFix] = some [] := by
  have h := C6_amended_feature_fails_at_compute baseFix "bad_feature" id
    tracesFix [peakFix] [wfFix] (by decide)
  exact ⟨by decide, h.1, h.2.1 (by decide), h.2.2⟩

theorem C7_witness :
    supportedFeature cfgPtpFix.feature = true
    ∧ cfgPtpFix.compute_buffer id tracesFix [peakFix, peakFix] [wfFix, wfFix]
        = some ((List.range ([peakFix, peakFix] : List Peak).length).map
            (fun i => comPerPeakRec cfgPtpFix id
              (([wfFix, wfFix] : List (List (List ℚ))).getD i [])
              ((([peakFix, peakFix] : List Peak).getD i peak0).channel_ind))) :=
  ⟨by decide,
    C7_batching_unobservable cfgPtpFix id tracesFix [peakFix, peakFix]
      [wfFix, wfFix] (by decide)⟩

theorem C8_witness :
    ("bogus" ∉ possible_localization_methods
      ∧ localize_peaks runPipelineFix "bogus" []
          = Except.error "Method is not supported")
    ∧ ("center_of_mass" ∈ possible_localization_methods
      ∧ ∃ step, localize_peaks_dispatch "center_of_mass" = Except.ok step
          ∧ localize_peaks runPipelineFix "center_of_mass" []
              = Except.ok (runPipelineFix step [])) :=
  ⟨⟨by decide, (C8_method_validation runPipelineFix "bogus" []).1 (by decide)⟩,
    ⟨by decide,
      (C8_method_validation runPipelineFix "center_of_mass" []).2 (by decide)⟩⟩

theorem C9_witness :
    0 < storeFix.next
    ∧ ((monoComputeBufferSt monoCfgFix solveMonoFix tracesFix [peakFix]
          storeFix).2.mem 0 = storeFix.mem 0
      ∧ (monoComputeBufferSt monoCfgFix solveMonoFix tracesFix [peakFix]
            storeFix).1
          = monoCfgFix.compute_buffer solveMonoFix tracesFix [peakFix]
      ∧ (comComputeBufferSt cfgPtpFix id tracesFix [peakFix] [wfFix]
            storeFix).2 = storeFix
      ∧ (peakChanComputeBufferSt peakChanFix tracesFix [peakFix]
            storeFix).2 = storeFix) :=
  ⟨by decide,
    C9_frame_no_input_mutation monoCfgFix cfgPtpFix peakChanFix solveMonoFix
      id tracesFix [peakFix] [wfFix] storeFix 0 (by decide)⟩

theorem C10_witness :
    ((monoWindow 3 3 tracesTen 9).length = tracesTen.length - (9 - 3)
      ∧ (monoWindow 3 3 tracesTen 9).length < 3 + 3)
    ∧ monoWindow 3 3 tracesTen 2 = []
    ∧ (monoWfPtp monoCfgFix tracesTen
          { sample_ind := 0, channel_ind := 0, segment_ind := 0 } = none
      ∧ monoCfgFix.compute_buffer solveMonoFix tracesTen
          [{ sample_ind := 0, channel_ind := 0, segment_ind := 0 }] = none)
    ∧ monoWfPtp monoCfgFix tracesFix peakFix
        = some ((monoChanInds monoCfgFix peakFix.channel_ind).map
            (fun c => (ptpList (colD (monoWindow monoCfgFix.base.nbefore
                monoCfgFix.base.nafter tracesFix peakFix.sample_ind)
              c)).getD 0)) :=
  ⟨(C10_amended_window_boundary monoCfgFix solveMonoFix 3 3 tracesTen 9
      ⟨0, 0, 0⟩ []).1 (by decide) (by decide) (by decide),
    (C10_amended_window_boundary monoCfgFix solveMonoFix 3 3 tracesTen 2
      ⟨0, 0, 0⟩ []).2.1 (by decide) (by decide) (by decide),
    (C10_amended_window_boundary monoCfgFix solveMonoFix 3 3 tracesTen 0
      ⟨0, 0, 0⟩ []).2.2.1 (by decide) (by decide),
    (C10_amended_window_boundary monoCfgFix solveMonoFix 3 3 tracesFix 0
      peakFix []).2.2.2 (by decide)⟩
